import Mathlib

/-!
Verification of the include-cleaner core (clang-tools-extra include-cleaner
library, clangd IncludeCleaner, and the standalone clang-include-cleaner tool)
against its natural-language specification.

The development is a shallow embedding of the C++ sources:
* `Types.h` — the `Header` sum type with its `operator==` and `operator<`;
* `AnalysisInternal.h` — the `Hint` bitmask (note: in the source both
  enumerators `Complete` and `NameMatch` are literally `1`);
* `Analysis.cpp` — `prefer`, `addNameMatchHint`, `rank`, `walkUsed`;
* `Hooks.cpp` — `PPRecorder::InclusionDirective` and
  `RecordedPP::RecordedIncludes::match`;
* `IncludeCleaner.cpp` (clangd) — `mayConsiderUnused`, `getUnused`;
* `ClangIncludeCleaner.cpp` (tool) — `diagnoseReference` and the
  `-recover` flag.

Source locations, file entries and identifiers are modelled as plain data
(`Nat` ids and `String`s); the clang-dependent components that merely feed
the functions under scrutiny (the AST walker `walkAST`, `locateDecl`,
`includableHeader`) are modelled as oracle functions bundled in an
environment structure, exactly as they are separate compilation units in
the source.
-/

namespace IncludeCleaner

/-- A `clang::FileEntry`: a unique file identity plus the name returned by
`FileEntry::getName()`.  Pointer equality of interned `FileEntry*` is
modelled as structural equality. -/
structure FileEntry where
  fid : Nat
  name : String
deriving DecidableEq, Repr

/-- A `tooling::stdlib::Header`: an opaque identifier plus the canonical
spelling returned by `name()` (with angle brackets, e.g. `<vector>`).
`operator==`/`operator<` on stdlib headers compare the identifier. -/
structure StdlibHeader where
  sid : Nat
  name : String
deriving DecidableEq, Repr

/-- The `Header` sum type of `Types.h`: a physical file, a logical
standard-library header, a verbatim spelling, the builtin (predefines)
region, or the main file. -/
inductive Header where
  | physical (fe : FileEntry)
  | standardLibrary (sh : StdlibHeader)
  | verbatim (spelling : String)
  | builtin
  | mainFile
deriving DecidableEq, Repr

/-- `Header::kind()` as the ordinal of the `Kind` enumeration
(`Physical = 0, StandardLibrary = 1, Verbatim = 2, Builtin = 3,
MainFile = 4`). -/
def Header.kindIndex : Header → Nat
  | .physical _ => 0
  | .standardLibrary _ => 1
  | .verbatim _ => 2
  | .builtin => 3
  | .mainFile => 4

/-- `operator==(const Header&, const Header&)` from `Types.h`: kinds must
agree, then the payload is compared (file identity, stdlib identifier,
spelling; `Builtin` and `MainFile` carry no payload). -/
def Header.beq : Header → Header → Bool
  | .physical a, .physical b => a = b
  | .standardLibrary a, .standardLibrary b => a.sid = b.sid
  | .verbatim a, .verbatim b => a = b
  | .builtin, .builtin => true
  | .mainFile, .mainFile => true
  | _, _ => false

/-- `operator<(const Header&, const Header&)` from `Types.h`, transcribed
faithfully: differing kinds compare by kind ordinal; equal kinds compare the
payload — and in the `Physical` case the source really returns
`L.getPhysical() == R.getPhysical()` (an equality, not a less-than). -/
def Header.lt (L R : Header) : Bool :=
  if L.kindIndex ≠ R.kindIndex then L.kindIndex < R.kindIndex
  else
    match L, R with
    | .physical a, .physical b => a = b
    | .standardLibrary a, .standardLibrary b => a.sid < b.sid
    | .verbatim a, .verbatim b => a < b
    | _, _ => false

/-- Claim C2 — refuted as stated (code bug).  `Header::operator<` is not a
strict total order consistent with `==`: a `Physical` header compares less
than itself (so `<` is not irreflexive), and for two distinct `Physical`
headers none of `A < B`, `B < A`, `A == B` holds (so trichotomy fails).
Root cause: in `Types.h` the `Physical` case of `operator<` returns
`L.getPhysical() == R.getPhysical()`. -/
theorem headerLt_physical_not_strict_order :
    Header.lt (Header.physical ⟨0, "a.h"⟩) (Header.physical ⟨0, "a.h"⟩) = true
    ∧ Header.lt (Header.physical ⟨0, "a.h"⟩) (Header.physical ⟨1, "b.h"⟩) = false
    ∧ Header.lt (Header.physical ⟨1, "b.h"⟩) (Header.physical ⟨0, "a.h"⟩) = false
    ∧ Header.beq (Header.physical ⟨0, "a.h"⟩) (Header.physical ⟨1, "b.h"⟩) = false := by
  decide

/-! ## Hints and the ranker (`AnalysisInternal.h`, `Analysis.cpp`) -/

/-- `Hint::None` (no hint bits). -/
def hintNone : Nat := 0

/-- `Hint::Complete` — in `AnalysisInternal.h` the enumerator is `1`. -/
def hintComplete : Nat := 1

/-- `Hint::NameMatch` — in `AnalysisInternal.h` the enumerator is literally
`1` as well, i.e. it aliases `Complete` in the source. -/
def hintNameMatch : Nat := 1

/-- `Hinted<T>` from `AnalysisInternal.h`: a value tagged with a hint
bitmask. -/
structure Hinted (α : Type) where
  value : α
  hint : Nat
deriving DecidableEq, Repr

/-- `addHint` from `Analysis.cpp`: OR a hint into every item of a list. -/
def orHint (h : Nat) (items : List (Hinted α)) : List (Hinted α) :=
  items.map fun it => ⟨it.value, it.hint ||| h⟩

/-- Lexicographic `>` on a pair of booleans, as produced by
`std::make_tuple(bool, bool) > std::make_tuple(bool, bool)`. -/
def boolPairGt : Bool × Bool → Bool × Bool → Bool
  | (a1, a2), (b1, b2) => (a1 && !b1) || ((a1 == b1) && (a2 && !b2))

/-- `prefer` from `Analysis.cpp`: compare hint words by the tuple
`(hint & NameMatch, hint & Complete)` under lexicographic `>`. -/
def prefer (l r : Nat) : Bool :=
  boolPairGt (decide (l &&& hintNameMatch ≠ 0), decide (l &&& hintComplete ≠ 0))
             (decide (r &&& hintNameMatch ≠ 0), decide (r &&& hintComplete ≠ 0))

/-- Insert into a list already processed by `stableSortBy`: the new element
`a` (which occurred earlier in the input) moves past `b` only while
`cmp b a` holds.  With a valid strict weak ordering `cmp` this is exactly
the stable-sort placement. -/
def insertSorted (cmp : α → α → Bool) (a : α) : List α → List α
  | [] => [a]
  | b :: l => if cmp b a then b :: insertSorted cmp a l else a :: b :: l

/-- Model of `llvm::stable_sort` (and of `llvm::sort` where the comparator
is a valid total order): insertion sort driven by the strict comparator
`cmp`.  When `cmp` is a strict weak ordering this agrees with every stable
sort; when it is not (see `Header.lt` on `Physical` headers) it computes
what the insertion-sort paths of the mainstream `std::stable_sort`
implementations compute on small ranges. -/
def stableSortBy (cmp : α → α → Bool) : List α → List α
  | [] => []
  | a :: l => insertSorted cmp a (stableSortBy cmp l)

/-- The run-merging loop inside `rank` (`Analysis.cpp`): `acc` is the
element `*Write` currently being accumulated; adjacent elements whose
`Value` is `==` to it are folded in by OR-ing their hints. -/
def mergeAdjGo (acc : Hinted Header) : List (Hinted Header) → List (Hinted Header)
  | [] => [acc]
  | y :: ys =>
    if Header.beq y.value acc.value then mergeAdjGo ⟨acc.value, acc.hint ||| y.hint⟩ ys
    else acc :: mergeAdjGo y ys

/-- The full `Write`/`Read` dedup loop of `rank`: fold every maximal run of
adjacent `==`-equal headers into one entry, OR-combining hints. -/
def mergeAdj : List (Hinted Header) → List (Hinted Header)
  | [] => []
  | x :: xs => mergeAdjGo x xs

/-- `rank` from `Analysis.cpp`: stable-sort by `Header` order
(`*L < *R`), fold adjacent `==`-equal headers merging hints, stable-sort
by hint preference, then drop the hints. -/
def rank (candidates : List (Hinted Header)) : List Header :=
  let sortedByHeader :=
    stableSortBy (fun L R => Header.lt L.value R.value) candidates
  let merged := mergeAdj sortedByHeader
  let sortedByHint := stableSortBy (fun L R => prefer L.hint R.hint) merged
  sortedByHint.map (·.value)

/-- Claim C1 — refuted as stated (code bug).  With four `Physical`
candidates `[b, a, c, a]` over three distinct files (all hints `None`),
`rank` returns `[b, a, c, a]`: the duplicate `a` survives, so the list
handed to the visitor is not free of duplicates under `Header` equality.
The sort by `*L < *R` never brings the two copies of `a` together because
`operator<` on two distinct `Physical` headers is `false` in both
directions (its `Physical` case compares with `==`), defeating the
adjacent-run dedup that `rank`'s own comment announces. -/
theorem rank_emits_duplicate_physical_header :
    rank [⟨Header.physical ⟨1, "b.h"⟩, 0⟩, ⟨Header.physical ⟨0, "a.h"⟩, 0⟩,
          ⟨Header.physical ⟨2, "c.h"⟩, 0⟩, ⟨Header.physical ⟨0, "a.h"⟩, 0⟩]
      = [Header.physical ⟨1, "b.h"⟩, Header.physical ⟨0, "a.h"⟩,
         Header.physical ⟨2, "c.h"⟩, Header.physical ⟨0, "a.h"⟩]
    ∧ ¬ List.Pairwise (fun A B => Header.beq A B = false)
        (rank [⟨Header.physical ⟨1, "b.h"⟩, 0⟩, ⟨Header.physical ⟨0, "a.h"⟩, 0⟩,
               ⟨Header.physical ⟨2, "c.h"⟩, 0⟩, ⟨Header.physical ⟨0, "a.h"⟩, 0⟩]) := by
  decide

/-! ## Name-match hinting (`Analysis.cpp`) -/

/-- ASCII lower-casing of a character code, as `StringRef` case-insensitive
comparison performs it. -/
def lowerCode (n : Nat) : Nat :=
  if 65 ≤ n ∧ n ≤ 90 then n + 32 else n

/-- The character codes of a string, lower-cased. -/
def lowerCodes (s : String) : List Nat :=
  s.data.map fun c => lowerCode c.toNat

/-- `StringRef::equals_insensitive`: case-insensitive (ASCII) string
equality. -/
def eqInsensitive (a b : String) : Bool :=
  lowerCodes a = lowerCodes b

/-- `addNameMatchHint` from `Analysis.cpp`: given the referenced
identifier (`IdentifierInfo*`, possibly null), OR `Hint::NameMatch` into
every `Physical` candidate whose `FileEntry::getName()` equals the
identifier case-insensitively.  Note the source compares the identifier
against the file's full name, not its stem. -/
def addNameMatchHint (ii : Option String) (hs : List (Hinted Header)) :
    List (Hinted Header) :=
  match ii with
  | none => hs
  | some idName =>
    hs.map fun hh =>
      match hh.value with
      | Header.physical fe =>
        if eqInsensitive idName fe.name then ⟨hh.value, hh.hint ||| hintNameMatch⟩
        else hh
      | _ => hh

/-- Modelled from the spec: the filename stem of a path — "the name
without directory or extension" (everything after the last `/`, cut at the
last `.`).  This is the comparison key the spec prescribes for the
`NameMatch` hint; it exists only to state claim C3 and is not part of the
embedded code. -/
def stemOfSpec (s : String) : String :=
  let base := s.data.foldl (fun acc c => if c = '/' then [] else acc ++ [c]) []
  match base.reverse.dropWhile (fun c => c ≠ '.') with
  | [] => ⟨base⟩
  | _ :: beforeDot => ⟨beforeDot.reverse⟩

/-- Claim C3 — counterexample.  For identifier `foo` and a physical
candidate whose file is named `foo.h`, the stem (`foo`) matches the
identifier case-insensitively, yet `addNameMatchHint` leaves the hint word
untouched (`0`, which has no `NameMatch` bit): the source compares the
identifier against the full file name `foo.h`, so a stem-only match does
not receive the hint, contrary to the claim. -/
theorem addNameMatchHint_stem_only_gets_no_hint :
    addNameMatchHint (some "foo") [⟨Header.physical ⟨0, "foo.h"⟩, 0⟩]
      = [⟨Header.physical ⟨0, "foo.h"⟩, 0⟩]
    ∧ stemOfSpec "foo.h" = "foo"
    ∧ eqInsensitive "foo" (stemOfSpec "foo.h") = true
    ∧ (0 : Nat) &&& hintNameMatch = 0 := by
  refine ⟨?_, ?_, ?_, ?_⟩ <;> decide

/-- Claim C3 — amended.  A `Physical` candidate receives the `NameMatch`
hint (its hint word is OR-ed with `Hint::NameMatch`) if and only if the
file's full recorded name — not its stem — equals the referenced
identifier case-insensitively; all other candidates are unchanged.  Stated
for an arbitrary candidate at an arbitrary position of the list. -/
theorem addNameMatchHint_full_name_match :
    ∀ (idName : String) (pre post : List (Hinted Header)) (fe : FileEntry) (h0 : Nat),
      (addNameMatchHint (some idName) (pre ++ ⟨Header.physical fe, h0⟩ :: post))[pre.length]?
        = some ⟨Header.physical fe,
                if eqInsensitive idName fe.name then h0 ||| hintNameMatch else h0⟩ := by
  intro idName pre post fe h0
  unfold addNameMatchHint
  rw [List.getElem?_map, List.getElem?_append_right (Nat.le_refl _), Nat.sub_self]
  by_cases h : eqInsensitive idName fe.name = true
  · simp [h]
  · simp [h]

/-! ## The preprocessor recorder (`Hooks.cpp`) -/

/-- `RecordedPP::Include`: one `#include` directive from the main file —
its spelling (text between the delimiters), the resolved file (or none),
the location of the `#`, and the 1-based line number. -/
structure Include where
  spelled : String
  resolved : Option FileEntry
  location : Nat
  line : Nat
deriving DecidableEq, Repr

/-- `RecordedPP::RecordedIncludes`: the directives in textual order plus
the two secondary indices, `BySpelling` (spelling → ordinals) and `ByFile`
(resolved file → ordinals).  The maps are modelled as total functions that
return `[]` for absent keys, which is what `lookup` on the LLVM maps
yields. -/
structure RecordedIncludes where
  All : List Include
  BySpelling : String → List Nat
  ByFile : Option FileEntry → List Nat

/-- A freshly constructed `RecordedIncludes`. -/
def emptyIncludes : RecordedIncludes :=
  ⟨[], fun _ => [], fun _ => []⟩

/-- The preprocessor events `PPRecorder` reacts to: `FileChanged` (which
records whether the new location is written in the main file) and
`InclusionDirective`. -/
inductive PPEvent where
  | fileChanged (isMainFile : Bool)
  | inclusionDirective (hash : Nat) (spelled : String) (file : Option FileEntry) (line : Nat)

/-- The recorder's state: the `Active` flag plus the table under
construction. -/
structure RecState where
  active : Bool
  includes : RecordedIncludes

/-- One step of `PPRecorder`: `FileChanged` sets `Active`;
`InclusionDirective`, when `Active`, appends an `Include` (its `Spelled`
taken from the interned map key, equal to the spelled filename) and pushes
the fresh ordinal onto both secondary indices. -/
def stepPP (st : RecState) : PPEvent → RecState
  | .fileChanged b => ⟨b, st.includes⟩
  | .inclusionDirective hash spelled file line =>
    if st.active then
      let n := st.includes.All.length
      ⟨st.active,
       ⟨st.includes.All ++ [⟨spelled, file, hash, line⟩],
        fun s => if s = spelled then st.includes.BySpelling s ++ [n]
                 else st.includes.BySpelling s,
        fun f => if f = file then st.includes.ByFile f ++ [n]
                 else st.includes.ByFile f⟩⟩
    else st

/-- Run the recorder over an event sequence, starting outside the main
file with an empty table. -/
def recordPP (events : List PPEvent) : RecState :=
  events.foldl stepPP ⟨false, emptyIncludes⟩

/-- A secondary index is consistent with the sequence when an ordinal is
listed under a key exactly when the entry at that ordinal projects to the
key. -/
def indexConsistent {κ : Type} (proj : Include → κ) (all : List Include)
    (idx : κ → List Nat) : Prop :=
  ∀ (k : κ) (i : Nat), i ∈ idx k ↔ ∃ inc, all[i]? = some inc ∧ proj inc = k

/-- Every ordinal list of a secondary index is strictly increasing. -/
def indexOrdered {κ : Type} (idx : κ → List Nat) : Prop :=
  ∀ k, List.Pairwise (· < ·) (idx k)

/-- A secondary index lists as many ordinals under a key as there are
entries projecting to the key (duplicates included). -/
def indexCounts {κ : Type} [DecidableEq κ] (proj : Include → κ)
    (all : List Include) (idx : κ → List Nat) : Prop :=
  ∀ k, (idx k).length = all.countP (fun inc => decide (proj inc = k))

theorem mem_index_lt_length {κ : Type} {proj : Include → κ} {all : List Include}
    {idx : κ → List Nat} (hc : indexConsistent proj all idx) :
    ∀ k i, i ∈ idx k → i < all.length := by
  intro k i hi
  obtain ⟨inc, hg, -⟩ := (hc k i).1 hi
  exact (List.getElem?_eq_some.mp hg).1

theorem indexConsistent_append {κ : Type} [DecidableEq κ] {proj : Include → κ}
    {all : List Include} {idx : κ → List Nat} (x : Include)
    (hc : indexConsistent proj all idx) :
    indexConsistent proj (all ++ [x])
      (fun k => if k = proj x then idx k ++ [all.length] else idx k) := by
  intro k i
  by_cases hk : k = proj x
  · subst hk
    simp only [if_pos rfl]
    constructor
    · intro hi
      rcases List.mem_append.mp hi with hi | hi
      · obtain ⟨inc, hg, hp⟩ := (hc _ i).1 hi
        have hlt : i < all.length := (List.getElem?_eq_some.mp hg).1
        exact ⟨inc, by rw [List.getElem?_append_left hlt]; exact hg, hp⟩
      · have hin : i = all.length := by simpa using hi
        subst hin
        refine ⟨x, ?_, rfl⟩
        rw [List.getElem?_append_right (Nat.le_refl _), Nat.sub_self]
        rfl
    · rintro ⟨inc, hg, hp⟩
      rcases Nat.lt_trichotomy i all.length with h | h | h
      · rw [List.getElem?_append_left h] at hg
        exact List.mem_append.mpr (Or.inl ((hc _ i).2 ⟨inc, hg, hp⟩))
      · subst h
        exact List.mem_append.mpr (Or.inr (by simp))
      · rw [List.getElem?_append_right (Nat.le_of_lt h)] at hg
        have hnone : ([x] : List Include)[i - all.length]? = none :=
          List.getElem?_eq_none (by simp; omega)
        rw [hnone] at hg
        cases hg
  · simp only [if_neg hk]
    constructor
    · intro hi
      obtain ⟨inc, hg, hp⟩ := (hc k i).1 hi
      have hlt : i < all.length := (List.getElem?_eq_some.mp hg).1
      exact ⟨inc, by rw [List.getElem?_append_left hlt]; exact hg, hp⟩
    · rintro ⟨inc, hg, hp⟩
      rcases Nat.lt_trichotomy i all.length with h | h | h
      · rw [List.getElem?_append_left h] at hg
        exact (hc k i).2 ⟨inc, hg, hp⟩
      · subst h
        rw [List.getElem?_append_right (Nat.le_refl _), Nat.sub_self] at hg
        have hx : x = inc := by simpa using hg
        cases hx
        exact absurd hp.symm hk
      · rw [List.getElem?_append_right (Nat.le_of_lt h)] at hg
        have hnone : ([x] : List Include)[i - all.length]? = none :=
          List.getElem?_eq_none (by simp; omega)
        rw [hnone] at hg
        cases hg

theorem indexOrdered_append {κ : Type} [DecidableEq κ] {proj : Include → κ}
    {all : List Include} {idx : κ → List Nat} (x : Include)
    (hc : indexConsistent proj all idx) (ho : indexOrdered idx) :
    indexOrdered (fun k => if k = proj x then idx k ++ [all.length] else idx k) := by
  intro k
  by_cases hk : k = proj x
  · simp only [if_pos hk]
    refine List.pairwise_append.mpr ⟨ho k, List.pairwise_singleton _ _, ?_⟩
    intro a ha b hb
    have hb1 : b = all.length := by simpa using hb
    subst hb1
    exact mem_index_lt_length hc k a ha
  · simpa only [if_neg hk] using ho k

theorem indexCounts_append {κ : Type} [DecidableEq κ] {proj : Include → κ}
    {all : List Include} {idx : κ → List Nat} (x : Include)
    (hcnt : indexCounts proj all idx) :
    indexCounts proj (all ++ [x])
      (fun k => if k = proj x then idx k ++ [all.length] else idx k) := by
  intro k
  by_cases hk : k = proj x
  · simp only [if_pos hk, List.length_append, List.countP_append, hcnt k]
    simp [List.countP_cons, hk]
  · have hx : ¬ proj x = k := fun h => hk h.symm
    simp only [if_neg hk, List.countP_append, hcnt k]
    simp [List.countP_cons, hx]

/-- The joint invariant of a recorded include table: both secondary
indices are consistent with the sequence, strictly increasing, and count
one ordinal per matching entry. -/
def RecordedIncludes.wellIndexed (inc : RecordedIncludes) : Prop :=
  indexConsistent Include.spelled inc.All inc.BySpelling
  ∧ indexConsistent Include.resolved inc.All inc.ByFile
  ∧ indexOrdered inc.BySpelling
  ∧ indexOrdered inc.ByFile
  ∧ indexCounts Include.spelled inc.All inc.BySpelling
  ∧ indexCounts Include.resolved inc.All inc.ByFile

theorem wellIndexed_empty : emptyIncludes.wellIndexed := by
  refine ⟨?_, ?_, ?_, ?_, ?_, ?_⟩ <;> intro k <;> simp [emptyIncludes, indexConsistent]

theorem wellIndexed_step (st : RecState) (e : PPEvent)
    (h : st.includes.wellIndexed) : (stepPP st e).includes.wellIndexed := by
  obtain ⟨h1, h2, h3, h4, h5, h6⟩ := h
  cases e with
  | fileChanged b => exact ⟨h1, h2, h3, h4, h5, h6⟩
  | inclusionDirective hash spelled file line =>
    by_cases ha : st.active
    · simp only [stepPP, if_pos ha]
      exact ⟨indexConsistent_append ⟨spelled, file, hash, line⟩ h1,
             indexConsistent_append ⟨spelled, file, hash, line⟩ h2,
             indexOrdered_append ⟨spelled, file, hash, line⟩ h1 h3,
             indexOrdered_append ⟨spelled, file, hash, line⟩ h2 h4,
             indexCounts_append ⟨spelled, file, hash, line⟩ h5,
             indexCounts_append ⟨spelled, file, hash, line⟩ h6⟩
    · simp only [stepPP, if_neg ha]
      exact ⟨h1, h2, h3, h4, h5, h6⟩

theorem wellIndexed_recordPP (events : List PPEvent) :
    (recordPP events).includes.wellIndexed := by
  suffices h : ∀ (st : RecState), st.includes.wellIndexed →
      (events.foldl stepPP st).includes.wellIndexed from
    h ⟨false, emptyIncludes⟩ wellIndexed_empty
  induction events with
  | nil => intro st hst; exact hst
  | cons e es ih =>
    intro st hst
    exact ih (stepPP st e) (wellIndexed_step st e hst)

/-- Claim C6 — confirmed.  After any sequence of preprocessor events the
secondary indices of the recorded table stay consistent with the sequence:
every ordinal under a spelling points to an entry with that spelling
(symmetrically for resolved files); the ordinal lists are strictly
increasing (hence duplicate-free); and a spelling recorded twice
contributes two entries and two ordinals, since the number of ordinals
under a key equals the number of entries carrying that key. -/
theorem recordPP_indices_consistent (events : List PPEvent) :
    (∀ (s : String) (i : Nat), i ∈ (recordPP events).includes.BySpelling s →
      ∃ inc, (recordPP events).includes.All[i]? = some inc ∧ inc.spelled = s)
    ∧ (∀ (f : Option FileEntry) (i : Nat), i ∈ (recordPP events).includes.ByFile f →
      ∃ inc, (recordPP events).includes.All[i]? = some inc ∧ inc.resolved = f)
    ∧ (∀ s, List.Pairwise (· < ·) ((recordPP events).includes.BySpelling s))
    ∧ (∀ s, ((recordPP events).includes.BySpelling s).length
        = (recordPP events).includes.All.countP (fun inc => decide (inc.spelled = s))) := by
  obtain ⟨h1, h2, h3, _, h5, _⟩ := wellIndexed_recordPP events
  exact ⟨fun s i hi => (h1 s i).1 hi, fun f i hi => (h2 f i).1 hi, h3, h5⟩

/-- Claim C6 — witness: a concrete run recording the same spelling twice
inside the main file.  The first ordinal points at an entry spelled
`v.h`, the ordinal list under `v.h` is strictly increasing, and it has as
many ordinals (two) as there are entries spelled `v.h`. -/
theorem recordPP_indices_consistent_witness :
    (∃ inc,
      (recordPP [PPEvent.fileChanged true,
                 PPEvent.inclusionDirective 0 "v.h" none 1,
                 PPEvent.inclusionDirective 9 "v.h" none 2]).includes.All[0]? = some inc
      ∧ inc.spelled = "v.h")
    ∧ List.Pairwise (· < ·)
        ((recordPP [PPEvent.fileChanged true,
                    PPEvent.inclusionDirective 0 "v.h" none 1,
                    PPEvent.inclusionDirective 9 "v.h" none 2]).includes.BySpelling "v.h")
    ∧ ((recordPP [PPEvent.fileChanged true,
                  PPEvent.inclusionDirective 0 "v.h" none 1,
                  PPEvent.inclusionDirective 9 "v.h" none 2]).includes.BySpelling "v.h").length
        = (recordPP [PPEvent.fileChanged true,
                     PPEvent.inclusionDirective 0 "v.h" none 1,
                     PPEvent.inclusionDirective 9 "v.h" none 2]).includes.All.countP
            (fun inc => decide (inc.spelled = "v.h")) := by
  have h := recordPP_indices_consistent
    [PPEvent.fileChanged true,
     PPEvent.inclusionDirective 0 "v.h" none 1,
     PPEvent.inclusionDirective 9 "v.h" none 2]
  exact ⟨h.1 "v.h" 0 (by decide), h.2.2.1 "v.h", h.2.2.2 "v.h"⟩

/-! ## `RecordedIncludes::match` (`Hooks.cpp`) -/

/-- `StringRef::trim("<>")`: drop leading and trailing `<`/`>`
characters. -/
def trimAngles (s : String) : String :=
  ⟨((s.data.dropWhile fun c => c == '<' || c == '>').reverse.dropWhile
      fun c => c == '<' || c == '>').reverse⟩

/-- `std::unique` over a sorted ordinal list: collapse adjacent equal
elements. -/
def dedupAdjacent : List Nat → List Nat
  | [] => []
  | [a] => [a]
  | a :: b :: l =>
    if a = b then dedupAdjacent (b :: l) else a :: dedupAdjacent (b :: l)

/-- The per-variant match predicate of the spec (§4.8), stated directly
over an `Include` entry: `Physical(F)` matches entries whose resolved file
is `F`; `StandardLibrary(S)` matches entries spelled like `S`'s canonical
name with the angle brackets trimmed; `Verbatim(V)` matches entries
spelled `V`; `Builtin` and `MainFile` match nothing. -/
def matchPredSpec (H : Header) (I : Include) : Bool :=
  match H with
  | .physical fe => decide (I.resolved = some fe)
  | .standardLibrary sh => decide (I.spelled = trimAngles sh.name)
  | .verbatim v => decide (I.spelled = v)
  | .builtin => false
  | .mainFile => false

/-- `RecordedPP::RecordedIncludes::match` from `Hooks.cpp`: look the header
up in the appropriate secondary index (`ByFile` for `Physical`,
`BySpelling` for `StandardLibrary` after trimming the angle brackets and
for `Verbatim`; nothing for `Builtin`/`MainFile`), then sort and
`unique` the resulting ordinals. -/
def RecordedIncludes.matchH (inc : RecordedIncludes) (H : Header) : List Nat :=
  let raw :=
    match H with
    | .physical fe => inc.ByFile (some fe)
    | .standardLibrary sh => inc.BySpelling (trimAngles sh.name)
    | .verbatim v => inc.BySpelling v
    | .builtin => []
    | .mainFile => []
  dedupAdjacent (stableSortBy (fun a b => decide (a < b)) raw)

theorem stableSortBy_sorted_id :
    ∀ (l : List Nat), List.Pairwise (· < ·) l →
      stableSortBy (fun a b => decide (a < b)) l = l := by
  intro l
  induction l with
  | nil => intro _; rfl
  | cons a l ih =>
    intro hp
    have htail := List.Pairwise.of_cons hp
    have hhead : ∀ b ∈ l, a < b := fun b hb => List.rel_of_pairwise_cons hp hb
    simp only [stableSortBy, ih htail]
    cases l with
    | nil => rfl
    | cons b l2 =>
      have hab : a < b := hhead b (List.mem_cons_self b l2)
      have hba : decide (b < a) = false := by
        simp
        omega
      simp [insertSorted, hba]

theorem dedupAdjacent_sorted_id :
    ∀ (l : List Nat), List.Pairwise (· < ·) l → dedupAdjacent l = l := by
  intro l
  induction l with
  | nil => intro _; rfl
  | cons a l ih =>
    intro hp
    cases l with
    | nil => rfl
    | cons b l2 =>
      have hab : a ≠ b := Nat.ne_of_lt (List.rel_of_pairwise_cons hp (List.mem_cons_self b l2))
      simp only [dedupAdjacent, if_neg hab]
      rw [ih (List.Pairwise.of_cons hp)]

/-- Claim C5 — confirmed.  For every recorded include table and every
header `H`, `match H` returns exactly the ordinals of the recorded
entries satisfying the variant's predicate of §4.8 (`Resolved == F` for
`Physical(F)`, `Spelled ==` canonical name with angle brackets trimmed for
`StandardLibrary`, `Spelled == V` for `Verbatim`, nothing for
`Builtin`/`MainFile`), and the returned list is strictly increasing, hence
sorted and free of duplicate entries. -/
theorem matchH_recorded_exact (events : List PPEvent) (H : Header) :
    (∀ i : Nat, i ∈ (recordPP events).includes.matchH H ↔
      ∃ inc, (recordPP events).includes.All[i]? = some inc ∧ matchPredSpec H inc = true)
    ∧ List.Pairwise (· < ·) ((recordPP events).includes.matchH H) := by
  obtain ⟨h1, h2, h3, h4, -, -⟩ := wellIndexed_recordPP events
  cases H with
  | physical fe =>
    have hord := h4 (some fe)
    have heq : (recordPP events).includes.matchH (Header.physical fe)
        = (recordPP events).includes.ByFile (some fe) := by
      simp only [RecordedIncludes.matchH]
      rw [stableSortBy_sorted_id _ hord, dedupAdjacent_sorted_id _ hord]
    rw [heq]
    refine ⟨fun i => ?_, hord⟩
    rw [h2 (some fe) i]
    simp [matchPredSpec]
  | standardLibrary sh =>
    have hord := h3 (trimAngles sh.name)
    have heq : (recordPP events).includes.matchH (Header.standardLibrary sh)
        = (recordPP events).includes.BySpelling (trimAngles sh.name) := by
      simp only [RecordedIncludes.matchH]
      rw [stableSortBy_sorted_id _ hord, dedupAdjacent_sorted_id _ hord]
    rw [heq]
    refine ⟨fun i => ?_, hord⟩
    rw [h1 (trimAngles sh.name) i]
    simp [matchPredSpec]
  | verbatim v =>
    have hord := h3 v
    have heq : (recordPP events).includes.matchH (Header.verbatim v)
        = (recordPP events).includes.BySpelling v := by
      simp only [RecordedIncludes.matchH]
      rw [stableSortBy_sorted_id _ hord, dedupAdjacent_sorted_id _ hord]
    rw [heq]
    refine ⟨fun i => ?_, hord⟩
    rw [h1 v i]
    simp [matchPredSpec]
  | builtin =>
    refine ⟨fun i => ?_, by simp [RecordedIncludes.matchH, stableSortBy, dedupAdjacent]⟩
    simp [RecordedIncludes.matchH, stableSortBy, dedupAdjacent, matchPredSpec]
  | mainFile =>
    refine ⟨fun i => ?_, by simp [RecordedIncludes.matchH, stableSortBy, dedupAdjacent]⟩
    simp [RecordedIncludes.matchH, stableSortBy, dedupAdjacent, matchPredSpec]

/-- Claim C5 — witness: a concrete recorded table (one directive spelled
`a.h` resolving to file `a.h`) and the verbatim header `a.h`; the match
result is strictly increasing and ordinal `0` is in it exactly because
entry `0` is spelled `a.h`. -/
theorem matchH_recorded_exact_witness :
    List.Pairwise (· < ·)
      ((recordPP [PPEvent.fileChanged true,
                  PPEvent.inclusionDirective 0 "a.h" (some ⟨0, "a.h"⟩) 1]).includes.matchH
        (Header.verbatim "a.h"))
    ∧ (0 ∈ (recordPP [PPEvent.fileChanged true,
                      PPEvent.inclusionDirective 0 "a.h" (some ⟨0, "a.h"⟩) 1]).includes.matchH
            (Header.verbatim "a.h") ↔
        ∃ inc,
          (recordPP [PPEvent.fileChanged true,
                     PPEvent.inclusionDirective 0 "a.h" (some ⟨0, "a.h"⟩) 1]).includes.All[0]?
            = some inc
          ∧ matchPredSpec (Header.verbatim "a.h") inc = true) := by
  have h := matchH_recorded_exact
    [PPEvent.fileChanged true, PPEvent.inclusionDirective 0 "a.h" (some ⟨0, "a.h"⟩) 1]
    (Header.verbatim "a.h")
  exact ⟨h.2, h.1 0⟩

/-! ## Symbols and the analyzer entry point (`Types.h`, `Analysis.cpp`) -/

/-- A `NamedDecl`: an identity plus the identifier returned by
`getDeclName().getAsIdentifierInfo()` (absent for non-identifier
names). -/
structure NamedDecl where
  did : Nat
  identName : Option String
deriving DecidableEq, Repr

/-- `DefinedMacro`: a macro name together with the particular definition
location (redefinitions are distinct symbols). -/
structure MacroDef where
  name : String
  definition : Nat
deriving DecidableEq, Repr

/-- The `Symbol::Kind` enumeration. -/
inductive SymbolKind where
  | macroKind
  | declarationKind
deriving DecidableEq, Repr

/-- `Symbol` from `Types.h`: a pointer union of a declaration and a
macro. -/
inductive Symbol where
  | decl (d : NamedDecl)
  | macroSym (m : MacroDef)
deriving DecidableEq, Repr

/-- `Symbol::kind()`. -/
def Symbol.kind : Symbol → SymbolKind
  | .decl _ => .declarationKind
  | .macroSym _ => .macroKind

/-- `Symbol::getMacro()` — `PointerUnion::get` asserts that the union holds
a macro; the `none` result models the failing assertion on a declaration
symbol. -/
def Symbol.getMacroDef : Symbol → Option MacroDef
  | .decl _ => none
  | .macroSym m => some m

/-- `SymbolReference`: a use location and the referenced symbol. -/
structure SymbolReference where
  location : Nat
  target : Symbol
deriving DecidableEq, Repr

/-- `Location` from `Types.h`: a physical source location or a logical
standard-library symbol. -/
inductive Location where
  | physical (loc : Nat)
  | standardLibrary (sid : Nat)
deriving DecidableEq, Repr

/-- `locateMacro` from `Locations.cpp`: a macro is provided at its
definition location, with no hints. -/
def locateMacroDef (m : MacroDef) : Hinted Location :=
  ⟨Location.physical m.definition, hintNone⟩

/-- One visitor invocation `(UsedAt, UsedSymbol, ProvidedBy)` of the
`UsedSymbolVisitor` callback. -/
structure Invocation where
  loc : Nat
  sym : Symbol
  providedBy : List Header
deriving DecidableEq, Repr

/-- The clang-dependent components that feed `walkUsed`, modelled as
oracles (they are separate compilation units in the source): `walkAST`
reports the `(location, hinted declaration)` pairs of one AST root in
traversal order; `locateDecl` maps a declaration to its hinted provider
locations; `includableHeader` maps a location to its hinted headers. -/
structure Env where
  walkAST : Nat → List (Nat × Hinted NamedDecl)
  locateDecl : NamedDecl → List (Hinted Location)
  includableHeader : Location → List (Hinted Header)

/-- The candidate-header computation of `walkUsed`'s declaration callback:
resolve every provider location to headers carrying the location's hint,
add the declaration-level hint to all, then the name-match hint. -/
def declHeaders (env : Env) (nd : Hinted NamedDecl) : List (Hinted Header) :=
  let headers := (env.locateDecl nd.value).foldl
    (fun acc loc => acc ++ orHint loc.hint (env.includableHeader loc.value)) []
  addNameMatchHint nd.value.identName (orHint nd.hint headers)

/-- One declaration-reference invocation of the visitor. -/
def processDeclRef (env : Env) (refLoc : Nat) (nd : Hinted NamedDecl) : Invocation :=
  ⟨refLoc, Symbol.decl nd.value, rank (declHeaders env nd)⟩

/-- The candidate-header computation of `walkUsed`'s macro loop. -/
def macroHeaders (env : Env) (m : MacroDef) : List (Hinted Header) :=
  let loc := locateMacroDef m
  addNameMatchHint (some m.name) (orHint loc.hint (env.includableHeader loc.value))

/-- The macro loop of `walkUsed`: each reference's target is asserted to be
a macro (`assert(MacroRef.Target.kind() == Symbol::Macro)`) before
`getMacro()` is accessed; a declaration target makes the whole run fail
(`none`). -/
def processMacroRefs (env : Env) : List SymbolReference → Option (List Invocation)
  | [] => some []
  | r :: rs =>
    match r.target.getMacroDef with
    | none => none
    | some m =>
      match processMacroRefs env rs with
      | none => none
      | some rest => some (⟨r.location, r.target, rank (macroHeaders env m)⟩ :: rest)

/-- `walkUsed` from `Analysis.cpp`: walk every AST root invoking the
callback once per reported reference, then process the recorded macro
references in order.  The returned list is the sequence of visitor
invocations; `none` models the assertion failure on a non-macro
reference. -/
def walkUsed (env : Env) (roots : List Nat) (macroRefs : List SymbolReference) :
    Option (List Invocation) :=
  let declInvs := roots.foldl
    (fun acc root => acc ++ (env.walkAST root).map fun p => processDeclRef env p.1 p.2) []
  match processMacroRefs env macroRefs with
  | none => none
  | some ms => some (declInvs ++ ms)

/-- The invocation produced for a macro reference, described directly (the
declaration case is irrelevant under the macro-kind precondition). -/
def macroInvocationOf (env : Env) (r : SymbolReference) : Invocation :=
  match r.target with
  | .macroSym m => ⟨r.location, r.target, rank (macroHeaders env m)⟩
  | .decl _ => ⟨r.location, r.target, []⟩

theorem foldl_append_eq_bind {α β : Type} (f : α → List β) :
    ∀ (l : List α) (init : List β),
      l.foldl (fun acc x => acc ++ f x) init = init ++ l.flatMap f := by
  intro l
  induction l with
  | nil => intro init; simp
  | cons a l ih => intro init; simp [List.foldl_cons, ih, List.append_assoc]

theorem processMacroRefs_eq_map (env : Env) :
    ∀ (rs : List SymbolReference),
      (∀ r ∈ rs, r.target.kind = SymbolKind.macroKind) →
      processMacroRefs env rs = some (rs.map (macroInvocationOf env)) := by
  intro rs
  induction rs with
  | nil => intro _; rfl
  | cons r rs ih =>
    intro h
    have hr : r.target.kind = SymbolKind.macroKind := h r (List.mem_cons_self r rs)
    have hrs : ∀ x ∈ rs, x.target.kind = SymbolKind.macroKind :=
      fun x hx => h x (List.mem_cons_of_mem r hx)
    cases ht : r.target with
    | decl d => rw [ht] at hr; exact absurd hr (by simp [Symbol.kind])
    | macroSym m =>
      simp only [processMacroRefs, ht, Symbol.getMacroDef, ih hrs, List.map_cons,
        macroInvocationOf]

/-- Claim C4 — confirmed.  For every environment, every list of AST roots
and every list of macro references whose targets are all macros, the
visitor is invoked exactly once per reference, in order: the invocation
sequence is the concatenation, over the roots in order, of one invocation
per `(location, declaration)` pair reported by the AST walker, followed by
one invocation per macro reference in input order.  Since the sequence is
exactly this concatenation, an invocation occurs (with an empty header
list) even when no provider header is found. -/
theorem walkUsed_once_per_reference (env : Env) (roots : List Nat)
    (macroRefs : List SymbolReference)
    (h : ∀ r ∈ macroRefs, r.target.kind = SymbolKind.macroKind) :
    walkUsed env roots macroRefs
      = some ((roots.flatMap fun root =>
                (env.walkAST root).map fun p => processDeclRef env p.1 p.2)
              ++ macroRefs.map (macroInvocationOf env)) := by
  unfold walkUsed
  rw [processMacroRefs_eq_map env macroRefs h, foldl_append_eq_bind]
  simp

/-- Claim C4 — witness: a concrete environment with one AST root reporting
one declaration reference and one macro reference, where no provider
header exists; the visitor is invoked once for each, in order, with empty
header lists. -/
theorem walkUsed_once_per_reference_witness :
    walkUsed
      ⟨fun _ => [(5, ⟨⟨1, some "x"⟩, 0⟩)], fun _ => [], fun _ => []⟩
      [0] [⟨7, Symbol.macroSym ⟨"M", 3⟩⟩]
      = some [⟨5, Symbol.decl ⟨1, some "x"⟩, []⟩,
              ⟨7, Symbol.macroSym ⟨"M", 3⟩, []⟩] := by
  rw [walkUsed_once_per_reference
    ⟨fun _ => [(5, ⟨⟨1, some "x"⟩, 0⟩)], fun _ => [], fun _ => []⟩
    [0] [⟨7, Symbol.macroSym ⟨"M", 3⟩⟩]
    (by intro r hr; simp at hr; rw [hr]; rfl)]
  rfl

/-- Claim C9 — confirmed.  `walkUsed` succeeds (no assertion failure in
the macro loop) exactly when every macro reference targets a symbol of
macro kind: under that precondition `getMacro` never fails, and a
reference targeting a declaration violates the assertion. -/
theorem walkUsed_requires_macro_targets (env : Env) (roots : List Nat)
    (macroRefs : List SymbolReference) :
    (walkUsed env roots macroRefs).isSome
      ↔ ∀ r ∈ macroRefs, r.target.kind = SymbolKind.macroKind := by
  have hmain : ∀ rs : List SymbolReference,
      (processMacroRefs env rs).isSome ↔ ∀ r ∈ rs, r.target.kind = SymbolKind.macroKind := by
    intro rs
    induction rs with
    | nil => simp [processMacroRefs]
    | cons r rs ih =>
      cases ht : r.target with
      | decl d =>
        simp only [processMacroRefs, ht, Symbol.getMacroDef]
        constructor
        · intro hf
          exact absurd hf (by simp)
        · intro hall
          have h1 := hall r (List.mem_cons_self r rs)
          rw [ht] at h1
          exact absurd h1 (by simp [Symbol.kind])
      | macroSym m =>
        simp only [processMacroRefs, ht, Symbol.getMacroDef]
        cases hrec : processMacroRefs env rs with
        | none =>
          constructor
          · intro hf
            exact absurd hf (by simp)
          · intro hall
            have hs : (processMacroRefs env rs).isSome :=
              ih.mpr fun x hx => hall x (List.mem_cons_of_mem r hx)
            rw [hrec] at hs
            exact absurd hs (by simp)
        | some ms =>
          constructor
          · intro _ x hx
            rcases List.mem_cons.mp hx with hx1 | hx1
            · rw [hx1, ht]; rfl
            · have hs : (processMacroRefs env rs).isSome := by rw [hrec]; rfl
              exact (ih.mp hs) x hx1
          · intro _
            rfl
  unfold walkUsed
  cases hrec : processMacroRefs env macroRefs with
  | none =>
    have := (hmain macroRefs)
    rw [hrec] at this
    simpa using this
  | some ms =>
    have := (hmain macroRefs)
    rw [hrec] at this
    simpa using this

/-- Claim C9 — witness: with a macro-kind reference the run succeeds; the
precondition is discharged at the concrete input. -/
theorem walkUsed_requires_macro_targets_witness :
    (walkUsed ⟨fun _ => [], fun _ => [], fun _ => []⟩ []
      [⟨2, Symbol.macroSym ⟨"A", 1⟩⟩]).isSome := by
  refine (walkUsed_requires_macro_targets
    ⟨fun _ => [], fun _ => [], fun _ => []⟩ [] [⟨2, Symbol.macroSym ⟨"A", 1⟩⟩]).mpr ?_
  intro r hr
  simp at hr
  rw [hr]
  rfl

/-! ## clangd's unused-include analysis (`IncludeCleaner.cpp`) -/

/-- A clangd `Inclusion`: the written spelling (with its delimiters, e.g.
`<vector>` or `"a.h"`), the resolved header identity (absent when the
header could not be resolved), and the IWYU keep annotation. -/
structure Inclusion where
  written : String
  headerID : Option Nat
  behindPragmaKeep : Bool
deriving DecidableEq, Repr

/-- The parts of the parsed AST that `mayConsiderUnused` consults,
modelled as oracles: the `AnalyzeStdlib` switch, the standard-library
recognizer `tooling::stdlib::Header::named`, and
`isFileMultipleIncludeGuarded` (include guard or `#pragma once`) for the
file behind a header identity. -/
structure ClangdEnv where
  analyzeStdlib : Bool
  stdlibNamed : String → Bool
  guarded : Nat → Bool

/-- `StringRef::front()` of an include spelling (spellings always carry a
delimiter, so the empty-string default is never consulted). -/
def firstChar (s : String) : Char :=
  s.data.headD ' '

/-- `mayConsiderUnused` from clangd's `IncludeCleaner.cpp`: a keep-annotated
include is never eligible; an angle-bracket include is eligible exactly when
stdlib analysis is on and the spelling is a recognized standard header (the
include-guard check is not reached on this path); otherwise the include must
resolve (`assert(Inc.HeaderID)` — `none` models the failing assertion) and
its file must be include-guarded. -/
def mayConsiderUnused (env : ClangdEnv) (inc : Inclusion) : Option Bool :=
  if inc.behindPragmaKeep then some false
  else if firstChar inc.written = '<' then
    some (env.analyzeStdlib && env.stdlibNamed inc.written)
  else
    match inc.headerID with
    | none => none
    | some hid => some (env.guarded hid)

theorem mayConsiderUnused_isSome_of_resolved (env : ClangdEnv) (inc : Inclusion)
    (hid : Nat) (h : inc.headerID = some hid) : (mayConsiderUnused env inc).isSome := by
  unfold mayConsiderUnused
  split
  · rfl
  · split
    · rfl
    · rw [h]
      rfl

/-- The loop body of `getUnused`: skip unresolved includes; skip used ones;
skip unused ones that are not eligible; report the rest.  (`getD false` on
the eligibility check is never consulted: on this path the include has a
resolved header identity, see `mayConsiderUnused_isSome_of_resolved`.) -/
def getUnusedStep (env : ClangdEnv) (referencedFiles : List Nat)
    (acc : List Inclusion) (inc : Inclusion) : List Inclusion :=
  match inc.headerID with
  | none => acc
  | some hid =>
    let used := referencedFiles.contains hid
    if !used && !((mayConsiderUnused env inc).getD false) then acc
    else if !used then acc ++ [inc] else acc

/-- `getUnused` from clangd's `IncludeCleaner.cpp`: collect the main-file
includes that resolved, are not in the referenced-files set, and are
eligible to be diagnosed. -/
def getUnused (env : ClangdEnv) (mainFileIncludes : List Inclusion)
    (referencedFiles : List Nat) : List Inclusion :=
  mainFileIncludes.foldl (getUnusedStep env referencedFiles) []

theorem mem_getUnusedStep {env : ClangdEnv} {referencedFiles : List Nat}
    {acc : List Inclusion} {inc x : Inclusion}
    (h : x ∈ getUnusedStep env referencedFiles acc inc) :
    x ∈ acc
    ∨ (x = inc ∧ ∃ hid, inc.headerID = some hid
        ∧ referencedFiles.contains hid = false
        ∧ (mayConsiderUnused env inc).getD false = true) := by
  unfold getUnusedStep at h
  cases hh : inc.headerID with
  | none => rw [hh] at h; exact Or.inl h
  | some hid =>
    rw [hh] at h
    simp only at h
    by_cases hc1 : (!referencedFiles.contains hid
        && !((mayConsiderUnused env inc).getD false)) = true
    · rw [if_pos hc1] at h; exact Or.inl h
    · rw [if_neg hc1] at h
      by_cases hu : (!referencedFiles.contains hid) = true
      · rw [if_pos hu] at h
        rcases List.mem_append.mp h with h | h
        · exact Or.inl h
        · have hx : x = inc := by simpa using h
          have hcontains : referencedFiles.contains hid = false := by
            simpa using hu
          have hmay : (mayConsiderUnused env inc).getD false = true := by
            rcases Bool.eq_false_or_eq_true ((mayConsiderUnused env inc).getD false) with hm | hm
            · exact hm
            · exact absurd (by rw [hcontains, hm]; rfl) hc1
          exact Or.inr ⟨hx, hid, rfl, hcontains, hmay⟩
      · rw [if_neg hu] at h; exact Or.inl h

theorem mem_getUnused_foldl (env : ClangdEnv) (referencedFiles : List Nat) :
    ∀ (incs : List Inclusion) (acc : List Inclusion) (x : Inclusion),
      x ∈ incs.foldl (getUnusedStep env referencedFiles) acc →
      x ∈ acc
      ∨ ∃ hid, x.headerID = some hid
          ∧ referencedFiles.contains hid = false
          ∧ (mayConsiderUnused env x).getD false = true := by
  intro incs
  induction incs with
  | nil => intro acc x h; exact Or.inl h
  | cons i incs ih =>
    intro acc x h
    rcases ih (getUnusedStep env referencedFiles acc i) x h with h1 | h1
    · rcases mem_getUnusedStep h1 with h2 | h2
      · exact Or.inl h2
      · obtain ⟨hx, hid, hhid, hcont, hmay⟩ := h2
        exact Or.inr ⟨hid, hx ▸ hhid, hcont, hx ▸ hmay⟩
    · exact Or.inr h1

/-- Claim C10 — confirmed.  `getUnused` never reports an include whose
header identity is absent: every include in its result resolved to some
`HeaderID`, and that identity is not in the referenced-files set. -/
theorem getUnused_resolved_and_unreferenced (env : ClangdEnv)
    (mainFileIncludes : List Inclusion) (referencedFiles : List Nat) :
    ∀ inc ∈ getUnused env mainFileIncludes referencedFiles,
      ∃ hid, inc.headerID = some hid ∧ referencedFiles.contains hid = false := by
  intro inc h
  rcases mem_getUnused_foldl env referencedFiles mainFileIncludes [] inc h with h1 | h1
  · cases h1
  · obtain ⟨hid, hhid, hcont, -⟩ := h1
    exact ⟨hid, hhid, hcont⟩

/-- Claim C10 — witness: a run over two includes, one resolved and unused,
one unresolved; the theorem applies to the reported one, whose identity
`3` is resolved and unreferenced. -/
theorem getUnused_resolved_and_unreferenced_witness :
    ∃ hid, (Inclusion.mk "\"a.h\"" (some 3) false).headerID = some hid
      ∧ ([] : List Nat).contains hid = false := by
  refine getUnused_resolved_and_unreferenced
    ⟨false, fun _ => false, fun _ => true⟩
    [⟨"\"a.h\"", some 3, false⟩, ⟨"\"b.h\"", none, false⟩] []
    ⟨"\"a.h\"", some 3, false⟩ ?_
  decide

/-- Claim C7 — counterexample.  An angle-bracket include `<mylib>` that is
a recognized standard header (with stdlib analysis enabled) but resolves
to a file with no include guard is nonetheless reported unused: the
include-guard exclusion is never applied on the angle-bracket path of
`mayConsiderUnused`, contradicting the claim that an include resolving to
a guard-less file is never eligible. -/
theorem getUnused_reports_unguarded_angle_include :
    getUnused ⟨true, fun s => s == "<mylib>", fun _ => false⟩
        [⟨"<mylib>", some 0, false⟩] []
      = [⟨"<mylib>", some 0, false⟩]
    ∧ (ClangdEnv.mk true (fun s => s == "<mylib>") (fun _ => false)).guarded 0 = false
    ∧ (Inclusion.mk "<mylib>" (some 0) false).headerID = some 0 := by
  refine ⟨?_, rfl, rfl⟩
  decide

/-- Claim C7 — amended.  An unused include is reported only when it passes
the eligibility predicate, where the include-guard condition applies only
to non-angle-bracket includes: it carries no keep annotation; if it is an
angle-bracket include, stdlib analysis is enabled and its spelling is a
recognized standard header (include guards are not consulted); if it is
not an angle-bracket include, it resolves to a file identity whose file
has an include guard or `#pragma once`. -/
theorem getUnused_eligibility (env : ClangdEnv)
    (mainFileIncludes : List Inclusion) (referencedFiles : List Nat) :
    ∀ inc ∈ getUnused env mainFileIncludes referencedFiles,
      inc.behindPragmaKeep = false
      ∧ (firstChar inc.written = '<' →
          env.analyzeStdlib = true ∧ env.stdlibNamed inc.written = true)
      ∧ (firstChar inc.written ≠ '<' →
          ∃ hid, inc.headerID = some hid ∧ env.guarded hid = true) := by
  intro inc h
  rcases mem_getUnused_foldl env referencedFiles mainFileIncludes [] inc h with h1 | h1
  · cases h1
  · obtain ⟨hid, hhid, -, hmay⟩ := h1
    unfold mayConsiderUnused at hmay
    by_cases hkeep : inc.behindPragmaKeep
    · rw [if_pos hkeep] at hmay
      simp at hmay
    · rw [if_neg hkeep] at hmay
      refine ⟨by simpa using hkeep, ?_, ?_⟩
      · intro hangle
        rw [if_pos hangle] at hmay
        simp only [Option.getD_some] at hmay
        exact ⟨(Bool.and_eq_true _ _).mp hmay |>.1, (Bool.and_eq_true _ _).mp hmay |>.2⟩
      · intro hangle
        rw [if_neg hangle, hhid] at hmay
        simp only [Option.getD_some] at hmay
        exact ⟨hid, hhid, hmay⟩

/-- Claim C7 (amended) — witness: a quote include resolving to a guarded
file, reported unused; the eligibility conjunction holds for it. -/
theorem getUnused_eligibility_witness :
    (Inclusion.mk "\"q.h\"" (some 4) false).behindPragmaKeep = false
    ∧ (firstChar "\"q.h\"" = '<' →
        (ClangdEnv.mk false (fun _ => false) (fun _ => true)).analyzeStdlib = true
        ∧ (ClangdEnv.mk false (fun _ => false) (fun _ => true)).stdlibNamed "\"q.h\"" = true)
    ∧ (firstChar "\"q.h\"" ≠ '<' →
        ∃ hid, (Inclusion.mk "\"q.h\"" (some 4) false).headerID = some hid
          ∧ (ClangdEnv.mk false (fun _ => false) (fun _ => true)).guarded hid = true) := by
  exact getUnused_eligibility
    ⟨false, fun _ => false, fun _ => true⟩ [⟨"\"q.h\"", some 4, false⟩] []
    ⟨"\"q.h\"", some 4, false⟩ (by decide)

/-! ## The standalone tool's reference diagnostics (`ClangIncludeCleaner.cpp`) -/

/-- The custom diagnostic kinds of the tool that `diagnoseReference`
emits. -/
inductive DiagKind where
  | satisfiedKind
  | unsatisfiedKind
  | noHeaderKind
  | noteHeaderKind
deriving DecidableEq, Repr

/-- One emitted diagnostic: its kind and the location it was reported at
(notes carry no location). -/
structure Diag where
  kind : DiagKind
  loc : Option Nat
deriving DecidableEq, Repr

/-- The state threaded through `EndSourceFile`'s visitor: the `Recovered`
set of headers already reported unsatisfied (a `DenseSet<Header>`,
membership by `operator==`) and the `Used` map from include ordinals to
the first symbol they satisfied (`try_emplace` keeps the first entry). -/
structure ToolState where
  recovered : List Header
  used : List (Nat × Symbol)
deriving DecidableEq, Repr

/-- `DenseSet<Header>::contains`. -/
def headerSetContains (l : List Header) (h : Header) : Bool :=
  l.any fun x => Header.beq x h

/-- `DenseSet<Header>::insert`. -/
def headerSetInsert (l : List Header) (h : Header) : List Header :=
  if headerSetContains l h then l else l ++ [h]

/-- `DenseMap::try_emplace`: insert only when the key is absent. -/
def usedTryEmplace (m : List (Nat × Symbol)) (k : Nat) (v : Symbol) :
    List (Nat × Symbol) :=
  if m.any (fun p => decide (p.1 = k)) then m else m ++ [(k, v)]

/-- The first loop of `diagnoseReference`: for each candidate header, a
`Builtin`/`MainFile` header satisfies the reference (report once), and
every matched include is recorded in `Used` (report once on the first
match).  The accumulator is `(Diagnosed, Used, emitted diagnostics)`. -/
def diagRefFirstLoop (inc : RecordedIncludes) (loc : Nat) (sym : Symbol)
    (headers : List Header) (used0 : List (Nat × Symbol)) :
    Bool × List (Nat × Symbol) × List Diag :=
  headers.foldl
    (fun acc H =>
      let acc1 :=
        if (H.kindIndex == 3 || H.kindIndex == 4) && !acc.1 then
          (true, acc.2.1, acc.2.2 ++ [Diag.mk DiagKind.satisfiedKind (some loc)])
        else acc
      (inc.matchH H).foldl
        (fun acc2 i =>
          let u := usedTryEmplace acc2.2.1 i sym
          if !acc2.1 then
            (true, u, acc2.2.2 ++ [Diag.mk DiagKind.satisfiedKind (some loc)])
          else (acc2.1, u, acc2.2.2))
        acc1)
    (false, used0, [])

/-- `Action::diagnoseReference` from `ClangIncludeCleaner.cpp`.  The
`recoverFlag` argument models the global `-recover` option; exactly as in
the source, the body never consults it: the `Recovered` check and the
`Recovered.insert` are unconditional. -/
def diagnoseReference (recoverFlag : Bool) (inc : RecordedIncludes) (loc : Nat)
    (sym : Symbol) (headers : List Header) (st : ToolState) :
    ToolState × List Diag :=
  let fl := diagRefFirstLoop inc loc sym headers st.used
  if fl.1 then (⟨st.recovered, fl.2.1⟩, fl.2.2)
  else if headers.any (fun H => headerSetContains st.recovered H) then
    (⟨st.recovered, fl.2.1⟩, fl.2.2 ++ [Diag.mk DiagKind.satisfiedKind (some loc)])
  else
    let ds := fl.2.2
      ++ [Diag.mk (if headers.isEmpty then DiagKind.noHeaderKind else DiagKind.unsatisfiedKind)
            (some loc)]
      ++ headers.map (fun _ => Diag.mk DiagKind.noteHeaderKind none)
    (⟨headers.foldl (fun r H => headerSetInsert r H) st.recovered, fl.2.1⟩, ds)

/-- The visitor loop of `EndSourceFile`: diagnose each `(location, symbol,
ranked headers)` reference in order, threading the `Recovered`/`Used`
state and concatenating the emitted diagnostics. -/
def runRefs (recoverFlag : Bool) (inc : RecordedIncludes)
    (refs : List (Nat × Symbol × List Header)) : ToolState × List Diag :=
  refs.foldl
    (fun acc r =>
      let step := diagnoseReference recoverFlag inc r.1 r.2.1 r.2.2 acc.1
      (step.1, acc.2 ++ step.2))
    (⟨[], []⟩, [])

/-- Count the diagnostics of one kind. -/
def countKind (k : DiagKind) (ds : List Diag) : Nat :=
  ds.countP fun d => decide (d.kind = k)

/-- Claim C8 — refuted as stated (code bug).  With `-recover` disabled,
two successive references whose only candidate header is the same
unsatisfied `Physical("x.h")` still produce a single
`no header included` error: the second reference is reported as satisfied
out of the `Recovered` set, and the entire run is identical with the flag
on and off, because the tool parses `-recover` but never consults it. -/
theorem recover_flag_has_no_effect :
    countKind DiagKind.unsatisfiedKind
      (runRefs false emptyIncludes
        [(1, Symbol.decl ⟨0, none⟩, [Header.physical ⟨0, "x.h"⟩]),
         (2, Symbol.decl ⟨0, none⟩, [Header.physical ⟨0, "x.h"⟩])]).2 = 1
    ∧ runRefs false emptyIncludes
        [(1, Symbol.decl ⟨0, none⟩, [Header.physical ⟨0, "x.h"⟩]),
         (2, Symbol.decl ⟨0, none⟩, [Header.physical ⟨0, "x.h"⟩])]
      = runRefs true emptyIncludes
        [(1, Symbol.decl ⟨0, none⟩, [Header.physical ⟨0, "x.h"⟩]),
         (2, Symbol.decl ⟨0, none⟩, [Header.physical ⟨0, "x.h"⟩])] := by
  decide

end IncludeCleaner
